import Mathlib

/-!
Shallow embedding of `src/denial_trending.py` (denial-reason cleaning,
code normalisation and the grouped summary), together with theorems
checking the specification's claims against it.

Python strings are modelled as `List Char`; a spreadsheet cell that may
be NaN is modelled as `Option (List Char)`, with `strCell` playing the
role of Python's `str(...)` (NaN stringifies to `"nan"`).
-/

namespace DenialTrending

/-- A Python string, modelled as its list of characters. -/
abbrev PyStr := List Char

/-- The characters removed by Python's `str.strip()` with no argument. -/
def isPySpace (c : Char) : Bool :=
  c = ' ' || c = '\t' || c = '\n' || c = '\r' || c = '\x0b' || c = '\x0c'

/-- Python `s.strip()`: drop leading and trailing whitespace. -/
def pyStrip (s : PyStr) : PyStr :=
  ((s.dropWhile isPySpace).reverse.dropWhile isPySpace).reverse

/-- ASCII uppercasing of one character, as `str.upper()` acts on the
code strings appearing in this program. -/
def upperChar (c : Char) : Char :=
  if c = 'a' then 'A' else if c = 'b' then 'B' else if c = 'c' then 'C'
  else if c = 'd' then 'D' else if c = 'e' then 'E' else if c = 'f' then 'F'
  else if c = 'g' then 'G' else if c = 'h' then 'H' else if c = 'i' then 'I'
  else if c = 'j' then 'J' else if c = 'k' then 'K' else if c = 'l' then 'L'
  else if c = 'm' then 'M' else if c = 'n' then 'N' else if c = 'o' then 'O'
  else if c = 'p' then 'P' else if c = 'q' then 'Q' else if c = 'r' then 'R'
  else if c = 's' then 'S' else if c = 't' then 'T' else if c = 'u' then 'U'
  else if c = 'v' then 'V' else if c = 'w' then 'W' else if c = 'x' then 'X'
  else if c = 'y' then 'Y' else if c = 'z' then 'Z' else c

/-- Python `s.upper()`. -/
def pyUpper (s : PyStr) : PyStr := s.map upperChar

/-- Python `s.split(',')`: always returns at least one piece. -/
def splitComma : PyStr → List PyStr
  | [] => [[]]
  | c :: rest =>
    match splitComma rest with
    | [] => [[c]]
    | h :: t => if c = ',' then [] :: h :: t else (c :: h) :: t

/-- Python `s.startswith(p)`. -/
def pyStartsWith : PyStr → PyStr → Bool
  | [], _ => true
  | _ :: _, [] => false
  | p :: ps, c :: cs => p = c && pyStartsWith ps cs

/-- First index of `x` in a list, Python `l.index(x)` (as an `Option`,
`none` standing for `x not in l`). -/
def pyIndex (x : PyStr) : List PyStr → Option Nat
  | [] => none
  | c :: rest => if c = x then some 0 else (pyIndex x rest).map (· + 1)

/-- Python `str(cell)` for a cell that is either a string or NaN. -/
def strCell : Option PyStr → PyStr
  | none => "nan".toList
  | some s => s

/-- Lines 21 and 23 of the source: replace `;` by `,`, delete spaces,
split on `,`, strip each piece and drop pieces that are empty or
(case-insensitively) `NAN`.  The comprehension
`[c.strip() for c in codes if c.strip() and c.strip().upper() != 'NAN']`
is rendered as map-then-filter, which applies the same strip and tests
the same stripped value. -/
def cleanCodes (s : PyStr) : List PyStr :=
  (((splitComma ((s.map fun c => if c = ';' then ',' else c).filter
      fun c => c ≠ ' ')).map pyStrip).filter
    fun c => c ≠ [] && pyUpper c ≠ "NAN".toList)

/-- Line 28 of the source. -/
def exclude_trivial : List PyStr :=
  ["PR1".toList, "PR2".toList, "PR3".toList, "PR100".toList, "CO253".toList]

/-- Line 37 of the source. -/
def exclude_secondary : List PyStr :=
  ["CO45".toList, "OA94".toList, "PR94".toList, "CO94".toList]

/-- Lines 42-46 of the source: for each candidate two-letter group in
order, return the first code of `l` starting with it. -/
def findByOrder : List PyStr → List PyStr → Option PyStr
  | [], _ => none
  | p :: ps, l =>
    match l.filter (fun c => pyStartsWith p c) with
    | c :: _ => some c
    | [] => findByOrder ps l

/-- Lines 41-49 of the source: the prefix loop over
`["CO", "PR", "PI", "OA"]` followed by the `if not selected_code`
fallback, acting on `codes_to_consider`.  The Python variable
`selected_code` is `None` exactly when the loop found nothing (the
codes here are never empty strings), so that fallback is the `none`
branch of the match. -/
def pickCode (pool : List PyStr) : PyStr :=
  match findByOrder ["CO".toList, "PR".toList, "PI".toList, "OA".toList]
      pool with
  | some c => c
  | none =>
    match pool with
    | [] => "MISSING".toList
    | c :: _ => c

/-- Lines 31-49 of the source, acting on the code list that remains
after the trivial exclusion. -/
def selectCode (codes : List PyStr) : PyStr :=
  if "CO109".toList ∈ codes ∨ "PR109".toList ∈ codes then "CO109".toList
  else if "CO96".toList ∈ codes ∧ "OA97".toList ∈ codes then "CO96".toList
  else
    let filtered := codes.filter fun c => ¬ c ∈ exclude_secondary
    pickCode (if filtered = [] then codes else filtered)

/-- Lines 51-55 of the source: positional description lookup with
fallbacks, given the post-trivial-exclusion code list and the selected
code. -/
def descLookup (codes : List PyStr) (descs : List PyStr) (sel : PyStr) : PyStr :=
  match pyIndex sel codes with
  | some i =>
    if descs.length ≥ i + 1 then pyStrip (descs.getD i [])
    else
      match descs with
      | [] => "MISSING".toList
      | d :: _ => pyStrip d
  | none =>
    match descs with
    | [] => "MISSING".toList
    | d :: _ => pyStrip d

/-- Lines 25-57 of the source, after the code list and description list
have been computed. -/
def clean_reason_code_core (codes0 : List PyStr) (descs : List PyStr) :
    PyStr × PyStr :=
  if codes0 = [] then ("MISSING".toList, "MISSING".toList)
  else
    let codes := codes0.filter fun c => ¬ c ∈ exclude_trivial
    let sel := selectCode codes
    (sel, descLookup codes descs sel)

/-- Lines 20-57 of the source: the whole row cleaner, taking the two
cells (possibly NaN) of one row. -/
def clean_reason_code (rc d : Option PyStr) : PyStr × PyStr :=
  clean_reason_code_core (cleanCodes (strCell rc)) (splitComma (strCell d))

/-- Whether `re.match(r'^(PR|PI|PIB|OA)\d+', c)` succeeds: with
backtracking, the whole pattern matches exactly when one of the four
alternatives is a prefix and is followed by a digit. -/
def matchGuard (c : PyStr) : Bool :=
  (pyStartsWith "PR".toList c && digitAfter 2 c) ||
  (pyStartsWith "PI".toList c && digitAfter 2 c) ||
  (pyStartsWith "PIB".toList c && digitAfter 3 c) ||
  (pyStartsWith "OA".toList c && digitAfter 2 c)
where
  /-- Whether `c` has a decimal digit at position `i`. -/
  digitAfter (i : Nat) (c : PyStr) : Bool :=
    match c.drop i with
    | [] => false
    | d :: _ => d.isDigit

/-- The substitution `re.sub(r'^(PR|PI|PIB|OA)', 'CO', c)`: the alternatives are tried in
order, so `PI` shadows `PIB` (the third branch is unreachable, kept to
mirror the pattern). -/
def subCO (c : PyStr) : PyStr :=
  if pyStartsWith "PR".toList c then "CO".toList ++ c.drop 2
  else if pyStartsWith "PI".toList c then "CO".toList ++ c.drop 2
  else if pyStartsWith "PIB".toList c then "CO".toList ++ c.drop 3
  else if pyStartsWith "OA".toList c then "CO".toList ++ c.drop 2
  else c

/-- Lines 64-70 of the source (for string inputs; non-strings are
returned unchanged by the guard on line 65 and never arise here, since
the column it is applied to holds the strings produced by
`clean_reason_code`). -/
def normalize_prefix (code : PyStr) : PyStr :=
  let c := pyUpper (pyStrip code)
  if matchGuard c then subCO c else c

/-- One row of the merged table at the point where lines 89-95 of the
source aggregate it: the two derived grouping columns and the visit
identifier, here taken as a present string.  A `Visit #` cell that may
be missing (NaN) is modelled by `RowNan` further below. -/
structure Row where
  normCode : PyStr
  finalDesc : PyStr
  visit : PyStr
deriving DecidableEq

/-- The grouping key of line 90: `['Normalized Code', 'Final Description']`. -/
def groupKey (r : Row) : PyStr × PyStr := (r.normCode, r.finalDesc)

/-- The distinct group keys of the table, in first-appearance order. -/
def groupKeys (df : List Row) : List (PyStr × PyStr) :=
  (df.map groupKey).dedup

/-- Pandas `nunique` of the `Visit #` column within one group (line 91). -/
def nuniqueVisits (df : List Row) (k : PyStr × PyStr) : Nat :=
  (((df.filter fun r => groupKey r = k).map Row.visit).dedup).length

/-- Lines 89-95 of the source: group by key, count distinct visits, sort
by the count in descending order. -/
def final_summary (df : List Row) : List ((PyStr × PyStr) × Nat) :=
  List.insertionSort (fun a b => b.2 ≤ a.2)
    ((groupKeys df).map fun k => (k, nuniqueVisits df k))

/-- Number of distinct visit identifiers in the whole merged table. -/
def distinctVisits (df : List Row) : Nat :=
  ((df.map Row.visit).dedup).length

/-- The selection cascade exactly as the specification words it: CO109
or PR109 wins as CO109; else the CO96 and OA97 co-occurrence wins as
CO96; else drop the secondary-exclusion set (falling back to the
unfiltered list when nothing remains) and take the first code whose
two-letter group matches in the order CO, PR, PI, OA, else the first
remaining code, else MISSING. -/
def selectSpecCascade (codes : List PyStr) : PyStr :=
  if "CO109".toList ∈ codes ∨ "PR109".toList ∈ codes then "CO109".toList
  else if "CO96".toList ∈ codes ∧ "OA97".toList ∈ codes then "CO96".toList
  else
    let remaining := codes.filter fun c => ¬ c ∈ exclude_secondary
    let pool := if remaining = [] then codes else remaining
    match ((pool.find? fun c => pyStartsWith "CO".toList c).orElse fun _ =>
           (pool.find? fun c => pyStartsWith "PR".toList c).orElse fun _ =>
           (pool.find? fun c => pyStartsWith "PI".toList c).orElse fun _ =>
            pool.find? fun c => pyStartsWith "OA".toList c) with
    | some c => c
    | none => pool.headD "MISSING".toList

/-! ### Basic facts about the string model -/

/-- Python `split(',')` never returns an empty list of pieces. -/
theorem splitComma_ne_nil (s : PyStr) : splitComma s ≠ [] := by
  match s with
  | [] => simp [splitComma]
  | c :: rest =>
    unfold splitComma
    cases h : splitComma rest with
    | nil => simp
    | cons a t =>
      dsimp only
      split <;> simp

/-- Every code kept by the cleaning comprehension is a non-empty string. -/
theorem cleanCodes_mem_ne_nil (s : PyStr) (c : PyStr) (h : c ∈ cleanCodes s) :
    c ≠ [] := by
  unfold cleanCodes at h
  have := List.of_mem_filter h
  simp only [Bool.and_eq_true, decide_eq_true_eq] at this
  exact this.1

/-! ### C2: the spec example "PR94,CO45 picks PR94" -/

/-- C2 counterexample: on a row whose parsed code list is exactly
`[PR94, CO45]`, the code selects `CO45`, not `PR94` as the claim
states — the prefix order tries `CO` before `PR`, and the fallback list
still contains `CO45`. -/
theorem pr94_co45_picks_co45_not_pr94 :
    (clean_reason_code (some "PR94,CO45".toList) (some "descA,descB".toList)).1
        = "CO45".toList ∧
    "CO45".toList ≠ "PR94".toList := by
  decide

/-- C2 amended: for a row whose parsed code list is exactly
`[PR94, CO45]`, the secondary-exclusion filter removes both codes,
selection falls back to the original list, and the selected code is
`CO45`, the first CO-prefixed code (the prefix order starts at CO). -/
theorem pr94_co45_selects_first_co (rc d : Option PyStr)
    (h : cleanCodes (strCell rc) = ["PR94".toList, "CO45".toList]) :
    (clean_reason_code rc d).1 = "CO45".toList := by
  have hne : cleanCodes (strCell rc) ≠ [] := by rw [h]; simp
  unfold clean_reason_code clean_reason_code_core
  rw [if_neg hne]
  dsimp only
  rw [h]
  decide

/-- Witness for the amended C2 statement at a concrete row. -/
theorem pr94_co45_selects_first_co_witness :
    (clean_reason_code (some "PR94,CO45".toList) (some "a,b".toList)).1
      = "CO45".toList :=
  pr94_co45_selects_first_co (some "PR94,CO45".toList) (some "a,b".toList)
    (by decide)

/-! ### C9: degradation to MISSING -/

/-- C9 counterexample: with a present code `CO45` and an absent (NaN)
description cell, the cleaned description is the literal string `nan`
(Python's `str` of NaN), not the sentinel `MISSING`. -/
theorem absent_description_yields_nan :
    (clean_reason_code (some "CO45".toList) none).2 = "nan".toList ∧
    "nan".toList ≠ "MISSING".toList := by
  decide

/-- C9 amended: a reason-code cell that is absent or unparseable —
that is, whose parse yields no codes, covering the NaN cell (whose
`str` is `nan`, dropped by the NAN filter), empty strings and
delimiter-only strings — degrades both cleaned fields to the sentinel
`MISSING` for every description cell (and the cleaner is a total
function, so nothing raises); an absent description cell with a present
code, however, yields the literal string `nan` rather than `MISSING`. -/
theorem missing_degradation :
    (∀ rc d : Option PyStr, cleanCodes (strCell rc) = [] →
      clean_reason_code rc d = ("MISSING".toList, "MISSING".toList)) ∧
    (clean_reason_code (some "CO45".toList) none).2 = "nan".toList := by
  refine ⟨fun rc d h => ?_, by decide⟩
  unfold clean_reason_code clean_reason_code_core
  rw [if_pos h]

/-- Witness for the amended C9 statement: an absent (NaN) cell and a
present but unparseable cell both degrade to the sentinels. -/
theorem missing_degradation_witness :
    clean_reason_code none (some "Some desc, more".toList)
      = ("MISSING".toList, "MISSING".toList) ∧
    clean_reason_code (some ",, ;".toList) (some "x".toList)
      = ("MISSING".toList, "MISSING".toList) :=
  ⟨missing_degradation.1 none (some "Some desc, more".toList) (by decide),
   missing_degradation.1 (some ",, ;".toList) (some "x".toList) (by decide)⟩

/-! ### C10: rows whose parsed codes are all trivial -/

/-- C10: when the parsed code list is non-empty but every code is in
the trivial-exclusion set, the selected code is `MISSING` and the
description is the stripped first element of the comma-split
description string. -/
theorem all_trivial_row_missing_code_first_desc (rc d : Option PyStr)
    (h1 : cleanCodes (strCell rc) ≠ [])
    (h2 : ∀ c ∈ cleanCodes (strCell rc), c ∈ exclude_trivial) :
    clean_reason_code rc d =
      ("MISSING".toList, pyStrip ((splitComma (strCell d)).headD [])) := by
  unfold clean_reason_code clean_reason_code_core
  rw [if_neg h1]
  dsimp only
  have hf : ((cleanCodes (strCell rc)).filter fun c => ¬ c ∈ exclude_trivial)
      = [] := by
    rw [List.filter_eq_nil_iff]
    intro c hc
    simp only [decide_eq_true_eq, Decidable.not_not]
    exact h2 c hc
  rw [hf]
  cases hd : splitComma (strCell d) with
  | nil => exact absurd hd (splitComma_ne_nil _)
  | cons a t => rfl

/-- Witness for C10 at a concrete all-trivial row. -/
theorem all_trivial_row_witness :
    clean_reason_code (some "PR1,CO253".toList) (some " first desc, more".toList)
      = ("MISSING".toList,
         pyStrip ((splitComma (strCell (some " first desc, more".toList))).headD [])) :=
  all_trivial_row_missing_code_first_desc
    (some "PR1,CO253".toList) (some " first desc, more".toList)
    (by decide) (by decide)

/-! ### C3: the prefix rewrite of `normalize_prefix` -/

/-- A string starting with `PIB` starts with `PI`. -/
theorem startsWith_pib_pi (c : PyStr) (h : pyStartsWith "PIB".toList c = true) :
    pyStartsWith "PI".toList c = true := by
  match c with
  | [] => simp [pyStartsWith] at h
  | [a] =>
    have h' : pyStartsWith ['P', 'I', 'B'] [a] = true := h
    simp [pyStartsWith] at h'
  | a :: b :: r =>
    have h' : pyStartsWith ['P', 'I', 'B'] (a :: b :: r) = true := h
    simp only [pyStartsWith, Bool.and_eq_true, decide_eq_true_eq] at h'
    show pyStartsWith ['P', 'I'] (a :: b :: r) = true
    simp only [pyStartsWith, Bool.and_eq_true, decide_eq_true_eq]
    exact ⟨h'.1, h'.2.1, trivial⟩

/-- When the regex guard matched, the substitution replaces the first
two characters with `CO` (the `PIB` alternative is shadowed by `PI`). -/
theorem subCO_of_guard (c : PyStr) (h : matchGuard c = true) :
    subCO c = "CO".toList ++ c.drop 2 := by
  unfold subCO
  by_cases hPR : pyStartsWith "PR".toList c = true
  · rw [if_pos hPR]
  · rw [if_neg hPR]
    by_cases hPI : pyStartsWith "PI".toList c = true
    · rw [if_pos hPI]
    · have hPIB : ¬ pyStartsWith "PIB".toList c = true := fun hb =>
        hPI (startsWith_pib_pi c hb)
      rw [if_neg hPI, if_neg hPIB]
      by_cases hOA : pyStartsWith "OA".toList c = true
      · rw [if_pos hOA]
      · exfalso
        unfold matchGuard at h
        simp only [Bool.or_eq_true, Bool.and_eq_true] at h
        rcases h with ((⟨h1, -⟩ | ⟨h1, -⟩) | ⟨h1, -⟩) | ⟨h1, -⟩
        · exact hPR h1
        · exact hPI h1
        · exact hPIB h1
        · exact hOA h1

/-- C3 counterexample: `normalize_prefix` maps `PIB123` to `COB123`,
not to `CO123` as the claim states: the digit guard matches the `PIB`
alternative by backtracking, but the substitution pattern has no digit
requirement, so its `PI` alternative fires first and only `PI` is
replaced. -/
theorem pib_code_not_rewritten_to_co :
    normalize_prefix "PIB123".toList = "COB123".toList ∧
    "COB123".toList ≠ "CO123".toList := by
  decide

/-- C3 amended: on a stripped, uppercase code, when one of `PR`, `PI`,
`PIB`, `OA` is a prefix followed by a digit, `normalize_prefix`
replaces the first two characters by `CO` (so `OA97` becomes `CO97`
while `PIB123` becomes `COB123`); every other such code is returned
unchanged (a general code is first stripped and uppercased). -/
theorem normalize_prefix_rewrite (c : PyStr) (h1 : pyStrip c = c)
    (h2 : pyUpper c = c) :
    (matchGuard c = true → normalize_prefix c = "CO".toList ++ c.drop 2) ∧
    (matchGuard c = false → normalize_prefix c = c) := by
  constructor
  · intro hg
    unfold normalize_prefix
    dsimp only
    rw [h1, h2, if_pos hg]
    exact subCO_of_guard c hg
  · intro hg
    unfold normalize_prefix
    dsimp only
    rw [h1, h2, if_neg (by simp [hg])]

/-- Witness for the amended C3 statement at `PIB123` and `OA97`. -/
theorem normalize_prefix_rewrite_witness :
    normalize_prefix "PIB123".toList = "CO".toList ++ ("PIB123".toList.drop 2) ∧
    normalize_prefix "OA97".toList = "CO".toList ++ ("OA97".toList.drop 2) :=
  ⟨(normalize_prefix_rewrite "PIB123".toList (by decide) (by decide)).1 (by decide),
   (normalize_prefix_rewrite "OA97".toList (by decide) (by decide)).1 (by decide)⟩

/-! ### C1: the selection cascade -/

theorem findByOrder_nil (l : List PyStr) : findByOrder [] l = none := rfl

/-- The filter-and-take-head loop step equals `find?` composed with
`orElse`. -/
theorem findByOrder_cons (p : PyStr) (ps : List PyStr) (l : List PyStr) :
    findByOrder (p :: ps) l =
      ((l.find? fun c => pyStartsWith p c).orElse fun _ => findByOrder ps l) := by
  have e : findByOrder (p :: ps) l =
      (match l.filter fun c => pyStartsWith p c with
       | c :: _ => some c
       | [] => findByOrder ps l) := rfl
  rw [e, ← List.filter_head?]
  cases h : l.filter fun c => pyStartsWith p c with
  | nil => rfl
  | cons a t => rfl

theorem orElse_none {α : Type} (x : Option α) :
    (x.orElse fun _ => none) = x := by
  cases x <;> rfl

/-- The prefix pick rewritten through `find?`, matching the shape of
the cascade transcription. -/
theorem pickCode_eq_chain (pool : List PyStr) :
    pickCode pool =
      (match ((pool.find? fun c => pyStartsWith "CO".toList c).orElse fun _ =>
              (pool.find? fun c => pyStartsWith "PR".toList c).orElse fun _ =>
              (pool.find? fun c => pyStartsWith "PI".toList c).orElse fun _ =>
               pool.find? fun c => pyStartsWith "OA".toList c) with
       | some c => c
       | none => pool.headD "MISSING".toList) := by
  unfold pickCode
  rw [findByOrder_cons, findByOrder_cons, findByOrder_cons, findByOrder_cons,
    findByOrder_nil, orElse_none]
  cases hc : (pool.find? fun c => pyStartsWith "CO".toList c).orElse fun _ =>
      (pool.find? fun c => pyStartsWith "PR".toList c).orElse fun _ =>
      (pool.find? fun c => pyStartsWith "PI".toList c).orElse fun _ =>
       pool.find? fun c => pyStartsWith "OA".toList c with
  | some c => rfl
  | none => cases pool <;> rfl

/-- The embedded selection agrees with the cascade as the spec words
it, for every post-trivial-exclusion code list. -/
theorem selectCode_eq_cascade (codes : List PyStr) :
    selectCode codes = selectSpecCascade codes := by
  unfold selectCode selectSpecCascade
  by_cases hA : "CO109".toList ∈ codes ∨ "PR109".toList ∈ codes
  · rw [if_pos hA, if_pos hA]
  · rw [if_neg hA, if_neg hA]
    by_cases hB : "CO96".toList ∈ codes ∧ "OA97".toList ∈ codes
    · rw [if_pos hB, if_pos hB]
    · rw [if_neg hB, if_neg hB]
      dsimp only
      exact pickCode_eq_chain _

/-- C1: for every input row, the selected code produced by
`clean_reason_code` follows the spec's priority cascade over the row's
parsed code list (split, spaces removed, empty and NAN entries dropped,
trivial set excluded). -/
theorem selected_code_follows_cascade (rc d : Option PyStr) :
    (clean_reason_code rc d).1 =
      selectSpecCascade
        ((cleanCodes (strCell rc)).filter fun c => ¬ c ∈ exclude_trivial) := by
  unfold clean_reason_code clean_reason_code_core
  by_cases h : cleanCodes (strCell rc) = []
  · rw [if_pos h, h]
    rfl
  · rw [if_neg h]
    dsimp only
    exact selectCode_eq_cascade _

/-! ### C7: the selected code is never empty and is tracked -/

/-- A successful prefix search returns an element of the list. -/
theorem findByOrder_mem (ps l : List PyStr) (c : PyStr)
    (h : findByOrder ps l = some c) : c ∈ l := by
  induction ps with
  | nil => simp [findByOrder] at h
  | cons p ps ih =>
    unfold findByOrder at h
    cases hf : l.filter fun x => pyStartsWith p x with
    | nil =>
      rw [hf] at h
      exact ih h
    | cons a t =>
      rw [hf] at h
      simp only [Option.some.injEq] at h
      subst h
      exact List.mem_of_mem_filter (hf ▸ List.mem_cons_self a t)

/-- The prefix pick of lines 41-49 returns an element of its pool or
the sentinel. -/
theorem pickCode_mem (pool : List PyStr) :
    pickCode pool ∈ pool ∨ pickCode pool = "MISSING".toList := by
  unfold pickCode
  cases hc : findByOrder ["CO".toList, "PR".toList, "PI".toList, "OA".toList]
      pool with
  | some c => exact Or.inl (findByOrder_mem _ _ _ hc)
  | none =>
    cases pool with
    | nil => exact Or.inr rfl
    | cons a t => exact Or.inl (List.mem_cons_self a t)

/-- The selection of lines 31-49 is a member of the code list, the
sentinel, or one of the two fixed priority codes. -/
theorem selectCode_cases (codes : List PyStr) :
    selectCode codes ∈ codes ∨ selectCode codes = "MISSING".toList ∨
    selectCode codes = "CO109".toList ∨ selectCode codes = "CO96".toList := by
  unfold selectCode
  by_cases hA : "CO109".toList ∈ codes ∨ "PR109".toList ∈ codes
  · rw [if_pos hA]
    exact Or.inr (Or.inr (Or.inl rfl))
  · rw [if_neg hA]
    by_cases hB : "CO96".toList ∈ codes ∧ "OA97".toList ∈ codes
    · rw [if_pos hB]
      exact Or.inr (Or.inr (Or.inr rfl))
    · rw [if_neg hB]
      dsimp only
      rcases pickCode_mem (if (codes.filter fun c => ¬ c ∈ exclude_secondary) = []
          then codes else codes.filter fun c => ¬ c ∈ exclude_secondary) with h | h
      · left
        by_cases hz : (codes.filter fun c => ¬ c ∈ exclude_secondary) = []
        · rw [if_pos hz] at h ⊢
          exact h
        · rw [if_neg hz] at h ⊢
          exact List.mem_of_mem_filter h
      · exact Or.inr (Or.inl h)

/-- C7: for every input row, the selected code is a non-empty string
and is either one of the row's cleaned codes — parsed and filtered,
trivial-exclusion included — the sentinel `MISSING`, or one of the
fixed priority codes `CO109` and `CO96`. -/
theorem selected_code_nonempty_tracked (rc d : Option PyStr) :
    (clean_reason_code rc d).1 ≠ [] ∧
    ((clean_reason_code rc d).1
        ∈ (cleanCodes (strCell rc)).filter (fun c => ¬ c ∈ exclude_trivial) ∨
      (clean_reason_code rc d).1 = "MISSING".toList ∨
      (clean_reason_code rc d).1 = "CO109".toList ∨
      (clean_reason_code rc d).1 = "CO96".toList) := by
  unfold clean_reason_code clean_reason_code_core
  by_cases h : cleanCodes (strCell rc) = []
  · rw [if_pos h]
    exact ⟨by decide, Or.inr (Or.inl rfl)⟩
  · rw [if_neg h]
    dsimp only
    rcases selectCode_cases
        ((cleanCodes (strCell rc)).filter fun c => ¬ c ∈ exclude_trivial) with
      hm | hm | hm | hm
    · have hmem : selectCode
          ((cleanCodes (strCell rc)).filter fun c => ¬ c ∈ exclude_trivial)
            ∈ cleanCodes (strCell rc) := List.mem_of_mem_filter hm
      exact ⟨cleanCodes_mem_ne_nil _ _ hmem, Or.inl hm⟩
    · exact ⟨by rw [hm]; decide, Or.inr (Or.inl hm)⟩
    · exact ⟨by rw [hm]; decide, Or.inr (Or.inr (Or.inl hm))⟩
    · exact ⟨by rw [hm]; decide, Or.inr (Or.inr (Or.inr hm))⟩

/-! ### C8: the description lookup -/

/-- C8 counterexample: a row with an empty parsed code list (here a NaN
codes cell) returns description `MISSING` outright, although the
description list has a first element `Some desc` that the claimed
fallback chain would return. -/
theorem empty_codes_description_missing :
    (clean_reason_code none (some "Some desc".toList)).2 = "MISSING".toList ∧
    pyStrip ((splitComma (strCell (some "Some desc".toList))).headD [])
      = "Some desc".toList ∧
    "MISSING".toList ≠ "Some desc".toList := by
  decide

/-- The description extraction characterised against a non-empty
description list. -/
theorem descLookup_char (codes descs : List PyStr) (sel : PyStr)
    (hd : descs ≠ []) :
    descLookup codes descs sel =
      match pyIndex sel codes with
      | some i =>
        if descs.length ≥ i + 1 then pyStrip (descs.getD i [])
        else pyStrip (descs.headD [])
      | none => pyStrip (descs.headD []) := by
  unfold descLookup
  cases hp : pyIndex sel codes with
  | none =>
    cases descs with
    | nil => exact absurd rfl hd
    | cons a t => rfl
  | some i =>
    dsimp only
    by_cases hlen : descs.length ≥ i + 1
    · rw [if_pos hlen, if_pos hlen]
    · rw [if_neg hlen, if_neg hlen]
      cases descs with
      | nil => exact absurd rfl hd
      | cons a t => rfl

/-- C8 amended: for every row whose parsed code list is non-empty, the
selected description is the stripped element of the comma-split
description list at the first index of the selected code in the cleaned
(post-trivial-exclusion) code list; when the selected code is absent
from that list or the index is out of range, it falls back to the
stripped first description (the comma-split list is never empty, so the
final `MISSING` fallback of the claim is unreachable). -/
theorem description_positional_lookup (rc d : Option PyStr)
    (h : cleanCodes (strCell rc) ≠ []) :
    (clean_reason_code rc d).2 =
      match pyIndex ((clean_reason_code rc d).1)
          ((cleanCodes (strCell rc)).filter fun c => ¬ c ∈ exclude_trivial) with
      | some i =>
        if (splitComma (strCell d)).length ≥ i + 1 then
          pyStrip ((splitComma (strCell d)).getD i [])
        else pyStrip ((splitComma (strCell d)).headD [])
      | none => pyStrip ((splitComma (strCell d)).headD []) := by
  unfold clean_reason_code clean_reason_code_core
  rw [if_neg h]
  dsimp only
  exact descLookup_char _ _ _ (splitComma_ne_nil (strCell d))

/-- Witness for the amended C8 statement at a concrete row. -/
theorem description_positional_lookup_witness :
    (clean_reason_code (some "PR1,CO45".toList) (some "descA,descB".toList)).2 =
      match pyIndex
          ((clean_reason_code (some "PR1,CO45".toList)
              (some "descA,descB".toList)).1)
          ((cleanCodes (strCell (some "PR1,CO45".toList))).filter
            fun c => ¬ c ∈ exclude_trivial) with
      | some i =>
        if (splitComma (strCell (some "descA,descB".toList))).length ≥ i + 1 then
          pyStrip ((splitComma (strCell (some "descA,descB".toList))).getD i [])
        else pyStrip ((splitComma (strCell (some "descA,descB".toList))).headD [])
      | none => pyStrip ((splitComma (strCell (some "descA,descB".toList))).headD []) :=
  description_positional_lookup (some "PR1,CO45".toList)
    (some "descA,descB".toList) (by decide)

/-! ### C4: idempotence of the normalisation -/

/-- Leading-whitespace removal, the first half of `strip()`. -/
def stripLead (l : PyStr) : PyStr := l.dropWhile isPySpace

/-- Trailing-whitespace removal, the second half of `strip()`. -/
def stripTrail (l : PyStr) : PyStr := (l.reverse.dropWhile isPySpace).reverse

theorem pyStrip_eq (s : PyStr) : pyStrip s = stripTrail (stripLead s) := rfl

theorem upperChar_eq_of_not_mem (c : Char)
    (h : ¬ c ∈ ['a', 'b', 'c', 'd', 'e', 'f', 'g', 'h', 'i', 'j', 'k', 'l',
      'm', 'n', 'o', 'p', 'q', 'r', 's', 't', 'u', 'v', 'w', 'x', 'y', 'z']) :
    upperChar c = c := by
  simp only [List.mem_cons, List.not_mem_nil, or_false, not_or] at h
  obtain ⟨n1, n2, n3, n4, n5, n6, n7, n8, n9, n10, n11, n12, n13, n14, n15,
    n16, n17, n18, n19, n20, n21, n22, n23, n24, n25, n26⟩ := h
  unfold upperChar
  rw [if_neg n1, if_neg n2, if_neg n3, if_neg n4, if_neg n5, if_neg n6,
    if_neg n7, if_neg n8, if_neg n9, if_neg n10, if_neg n11, if_neg n12,
    if_neg n13, if_neg n14, if_neg n15, if_neg n16, if_neg n17, if_neg n18,
    if_neg n19, if_neg n20, if_neg n21, if_neg n22, if_neg n23, if_neg n24,
    if_neg n25, if_neg n26]

theorem upperChar_eq_or_mem (c : Char) :
    upperChar c = c ∨ upperChar c ∈
      ['A', 'B', 'C', 'D', 'E', 'F', 'G', 'H', 'I', 'J', 'K', 'L', 'M',
       'N', 'O', 'P', 'Q', 'R', 'S', 'T', 'U', 'V', 'W', 'X', 'Y', 'Z'] := by
  by_cases h : c ∈ ['a', 'b', 'c', 'd', 'e', 'f', 'g', 'h', 'i', 'j', 'k',
      'l', 'm', 'n', 'o', 'p', 'q', 'r', 's', 't', 'u', 'v', 'w', 'x', 'y', 'z']
  · right
    fin_cases h <;> decide
  · left
    exact upperChar_eq_of_not_mem c h

theorem upperChar_fix_of_upper :
    ∀ d ∈ ['A', 'B', 'C', 'D', 'E', 'F', 'G', 'H', 'I', 'J', 'K', 'L', 'M',
           'N', 'O', 'P', 'Q', 'R', 'S', 'T', 'U', 'V', 'W', 'X', 'Y', 'Z'],
      upperChar d = d := by
  decide

theorem upperChar_idem (c : Char) : upperChar (upperChar c) = upperChar c := by
  rcases upperChar_eq_or_mem c with h | h
  · rw [h]
    exact h
  · exact upperChar_fix_of_upper _ h

theorem isPySpace_upperChar (c : Char) :
    isPySpace (upperChar c) = isPySpace c := by
  by_cases h : c ∈ ['a', 'b', 'c', 'd', 'e', 'f', 'g', 'h', 'i', 'j', 'k',
      'l', 'm', 'n', 'o', 'p', 'q', 'r', 's', 't', 'u', 'v', 'w', 'x', 'y', 'z']
  · fin_cases h <;> decide
  · rw [upperChar_eq_of_not_mem c h]

theorem pyUpper_idem (s : PyStr) : pyUpper (pyUpper s) = pyUpper s := by
  unfold pyUpper
  rw [List.map_map]
  exact List.map_congr_left fun a _ => upperChar_idem a

theorem dropWhile_dropWhile {α : Type} (p : α → Bool) (l : List α) :
    (l.dropWhile p).dropWhile p = l.dropWhile p := by
  induction l with
  | nil => rfl
  | cons a t ih =>
    by_cases h : p a = true
    · rw [List.dropWhile_cons_of_pos h]
      exact ih
    · rw [List.dropWhile_cons_of_neg h, List.dropWhile_cons_of_neg h]

theorem stripLead_stripLead (l : PyStr) : stripLead (stripLead l) = stripLead l :=
  dropWhile_dropWhile _ _

theorem stripTrail_stripTrail (l : PyStr) :
    stripTrail (stripTrail l) = stripTrail l := by
  unfold stripTrail
  rw [List.reverse_reverse, dropWhile_dropWhile]

theorem stripTrail_nil_forces (t : PyStr) (h : stripTrail t = []) :
    stripLead t = [] := by
  unfold stripTrail at h
  rw [List.reverse_eq_nil_iff] at h
  rw [List.dropWhile_eq_nil_iff] at h
  unfold stripLead
  rw [List.dropWhile_eq_nil_iff]
  intro x hx
  exact h x (List.mem_reverse.mpr hx)

theorem stripTrail_cons_of_ne (a : Char) (t : PyStr) (h : stripTrail t ≠ []) :
    stripTrail (a :: t) = a :: stripTrail t := by
  unfold stripTrail at h ⊢
  have hne : t.reverse.dropWhile isPySpace ≠ [] := fun hh => h (by rw [hh]; rfl)
  rw [List.reverse_cons, List.dropWhile_append,
    if_neg (by simpa [List.isEmpty_iff] using hne)]
  simp

theorem stripTrail_cons_of_nil (a : Char) (t : PyStr) (h : stripTrail t = []) :
    stripTrail (a :: t) = if isPySpace a then [] else [a] := by
  unfold stripTrail at h ⊢
  rw [List.reverse_eq_nil_iff] at h
  rw [List.reverse_cons, List.dropWhile_append, if_pos (by simp [h])]
  by_cases ha : isPySpace a = true
  · rw [if_pos ha]
    simp [List.dropWhile_cons, ha]
  · rw [if_neg ha]
    simp [List.dropWhile_cons, ha]

theorem stripLead_stripTrail_comm (l : PyStr) :
    stripLead (stripTrail l) = stripTrail (stripLead l) := by
  induction l with
  | nil => rfl
  | cons a t ih =>
    by_cases ha : isPySpace a = true
    · by_cases hdt : stripTrail t = []
      · rw [stripTrail_cons_of_nil a t hdt, if_pos ha]
        rw [show stripLead (a :: t) = stripLead t from
          List.dropWhile_cons_of_pos ha]
        rw [stripTrail_nil_forces t hdt]
        rfl
      · rw [stripTrail_cons_of_ne a t hdt]
        rw [show stripLead (a :: stripTrail t) = stripLead (stripTrail t) from
          List.dropWhile_cons_of_pos ha]
        rw [ih]
        rw [show stripLead (a :: t) = stripLead t from
          List.dropWhile_cons_of_pos ha]
    · by_cases hdt : stripTrail t = []
      · rw [stripTrail_cons_of_nil a t hdt, if_neg ha]
        rw [show stripLead [a] = [a] from List.dropWhile_cons_of_neg ha]
        rw [show stripLead (a :: t) = a :: t from List.dropWhile_cons_of_neg ha]
        rw [stripTrail_cons_of_nil a t hdt, if_neg ha]
      · rw [stripTrail_cons_of_ne a t hdt]
        rw [show stripLead (a :: stripTrail t) = a :: stripTrail t from
          List.dropWhile_cons_of_neg ha]
        rw [show stripLead (a :: t) = a :: t from List.dropWhile_cons_of_neg ha]
        rw [stripTrail_cons_of_ne a t hdt]

theorem pyStrip_idem (s : PyStr) : pyStrip (pyStrip s) = pyStrip s := by
  show stripTrail (stripLead (stripTrail (stripLead s)))
      = stripTrail (stripLead s)
  rw [stripLead_stripTrail_comm, stripLead_stripLead, stripTrail_stripTrail]

theorem pyStrip_pyUpper_comm (s : PyStr) :
    pyStrip (pyUpper s) = pyUpper (pyStrip s) := by
  have hw : (isPySpace ∘ upperChar) = isPySpace :=
    funext fun c => isPySpace_upperChar c
  show stripTrail (stripLead (pyUpper s)) = pyUpper (stripTrail (stripLead s))
  unfold stripTrail stripLead pyUpper
  rw [List.dropWhile_map, hw, ← List.map_reverse, List.dropWhile_map, hw,
    ← List.map_reverse]

theorem head_false_of_dropWhile_self {α : Type} (p : α → Bool) (a : α)
    (l : List α) (h : (a :: l).dropWhile p = a :: l) : p a = false := by
  by_contra hp
  rw [Bool.not_eq_false] at hp
  rw [List.dropWhile_cons_of_pos hp] at h
  have hle := (List.dropWhile_sublist (l := l) p).length_le
  rw [h] at hle
  simp at hle

theorem strip_facts (c : PyStr) (h : pyStrip c = c) :
    stripLead c = c ∧ stripTrail c = c := by
  have hlen : (stripTrail (stripLead c)).length = c.length := by
    rw [← pyStrip_eq, h]
  have l1 : (stripLead c).length ≤ c.length :=
    (List.dropWhile_sublist _).length_le
  have l2 : (stripTrail (stripLead c)).length ≤ (stripLead c).length := by
    unfold stripTrail
    rw [List.length_reverse]
    calc ((stripLead c).reverse.dropWhile isPySpace).length
        ≤ (stripLead c).reverse.length := (List.dropWhile_sublist _).length_le
      _ = (stripLead c).length := List.length_reverse _
  have e1 : (stripLead c).length = c.length := le_antisymm l1 (by omega)
  have hlead : stripLead c = c := (List.dropWhile_sublist _).eq_of_length e1
  refine ⟨hlead, ?_⟩
  have h2 := h
  rw [pyStrip_eq, hlead] at h2
  exact h2

theorem startsWith_shape (p0 p1 : Char) (ps : PyStr) (c : PyStr)
    (h : pyStartsWith (p0 :: p1 :: ps) c = true) : ∃ r, c = p0 :: p1 :: r := by
  match c with
  | [] => simp [pyStartsWith] at h
  | [a] => simp [pyStartsWith] at h
  | a :: b :: r =>
    simp only [pyStartsWith, Bool.and_eq_true, decide_eq_true_eq] at h
    exact ⟨r, by rw [h.1, h.2.1]⟩

theorem guard_shape (c : PyStr) (h : matchGuard c = true) :
    ∃ c0 c1 r, c = c0 :: c1 :: r := by
  unfold matchGuard at h
  simp only [Bool.or_eq_true, Bool.and_eq_true] at h
  rcases h with ((⟨h1, -⟩ | ⟨h1, -⟩) | ⟨h1, -⟩) | ⟨h1, -⟩
  · obtain ⟨r, hr⟩ := startsWith_shape 'P' 'R' [] c h1
    exact ⟨'P', 'R', r, hr⟩
  · obtain ⟨r, hr⟩ := startsWith_shape 'P' 'I' [] c h1
    exact ⟨'P', 'I', r, hr⟩
  · obtain ⟨r, hr⟩ := startsWith_shape 'P' 'I' ['B'] c h1
    exact ⟨'P', 'I', r, hr⟩
  · obtain ⟨r, hr⟩ := startsWith_shape 'O' 'A' [] c h1
    exact ⟨'O', 'A', r, hr⟩

/-- Replacing the first two characters of a trailing-stripped string by
non-whitespace characters keeps it trailing-stripped. -/
theorem stripTrail_two (r : PyStr) (c0 c1 : Char)
    (h : stripTrail (c0 :: c1 :: r) = c0 :: c1 :: r)
    (d0 d1 : Char) (hd1 : isPySpace d1 = false) :
    stripTrail (d0 :: d1 :: r) = d0 :: d1 :: r := by
  unfold stripTrail at h ⊢
  have h' : (c0 :: c1 :: r).reverse.dropWhile isPySpace
      = (c0 :: c1 :: r).reverse := by
    have hcg := congrArg List.reverse h
    rwa [List.reverse_reverse] at hcg
  rw [show (c0 :: c1 :: r).reverse = r.reverse ++ [c1, c0] from by simp] at h'
  rw [show (d0 :: d1 :: r).reverse = r.reverse ++ [d1, d0] from by simp]
  cases hr : r.reverse with
  | nil =>
    have hrnil : r = [] := List.reverse_eq_nil_iff.mp hr
    subst hrnil
    simp only [List.reverse_nil, List.nil_append]
    rw [List.dropWhile_cons_of_neg (by simp [hd1])]
    rfl
  | cons b bs =>
    rw [hr] at h'
    simp only [List.cons_append] at h' ⊢
    have hb : isPySpace b = false := head_false_of_dropWhile_self _ _ _ h'
    rw [List.dropWhile_cons_of_neg (by simp [hb])]
    have hrv : r = bs.reverse ++ [b] := by
      have hcg := congrArg List.reverse hr
      rwa [List.reverse_reverse, List.reverse_cons] at hcg
    simp [hrv]

/-- C4 counterexample: `COab` carries the `CO` prefix, yet
`normalize_prefix` changes it to `COAB` (the function uppercases first),
refuting the claim that CO-prefixed codes are returned unchanged. -/
theorem co_prefixed_code_not_unchanged :
    pyStartsWith "CO".toList "COab".toList = true ∧
    normalize_prefix "COab".toList = "COAB".toList ∧
    "COAB".toList ≠ "COab".toList := by
  decide

/-- C4 amended: a trimmed, uppercase code carrying the `CO` prefix is
returned unchanged, and `normalize_prefix` is idempotent on every
string. -/
theorem normalize_prefix_idem :
    (∀ c : PyStr, pyStrip c = c → pyUpper c = c →
      pyStartsWith "CO".toList c = true → normalize_prefix c = c) ∧
    (∀ s : PyStr, normalize_prefix ( normalize_prefix s)
      = normalize_prefix s) := by
  have hval : ∀ s : PyStr, normalize_prefix s =
      if matchGuard (pyUpper (pyStrip s)) then subCO (pyUpper (pyStrip s))
      else pyUpper (pyStrip s) := fun s => rfl
  have fix : ∀ c : PyStr, pyStrip c = c → pyUpper c = c →
      matchGuard c = false → normalize_prefix c = c := by
    intro c h1 h2 hg
    rw [hval, h1, h2, if_neg (by simp [hg])]
  constructor
  · intro c h1 h2 hco
    obtain ⟨r, hr⟩ := startsWith_shape 'C' 'O' [] c hco
    apply fix c h1 h2
    rw [hr]
    exact rfl
  · intro s
    by_cases hg : matchGuard (pyUpper (pyStrip s)) = true
    · have h1 : pyStrip (pyUpper (pyStrip s)) = pyUpper (pyStrip s) := by
        rw [pyStrip_pyUpper_comm, pyStrip_idem]
      have h2 : pyUpper (pyUpper (pyStrip s)) = pyUpper (pyStrip s) :=
        pyUpper_idem _
      obtain ⟨c0, c1, r, hshape⟩ := guard_shape (pyUpper (pyStrip s)) hg
      have hdrop : (pyUpper (pyStrip s)).drop 2 = r := by
        rw [hshape]
        exact rfl
      have hsub : subCO (pyUpper (pyStrip s)) = 'C' :: 'O' :: r := by
        rw [subCO_of_guard _ hg, hdrop]
        rfl
      have hfacts := strip_facts _ h1
      rw [hshape] at hfacts
      rw [hshape] at h2
      unfold pyUpper at h2
      simp only [List.map_cons, List.cons.injEq] at h2
      rw [hval s, if_pos hg, hsub]
      apply fix
      · rw [pyStrip_eq]
        rw [show stripLead ('C' :: 'O' :: r) = 'C' :: 'O' :: r from
          List.dropWhile_cons_of_neg (by decide)]
        exact stripTrail_two r c0 c1 hfacts.2 'C' 'O' (by decide)
      · show List.map upperChar ('C' :: 'O' :: r) = 'C' :: 'O' :: r
        simp only [List.map_cons, List.cons.injEq]
        exact ⟨rfl, rfl, h2.2.2⟩
      · rfl
    · rw [hval s, if_neg hg]
      apply fix
      · rw [pyStrip_pyUpper_comm, pyStrip_idem]
      · exact pyUpper_idem _
      · rw [Bool.not_eq_true] at hg
        exact hg

/-- Witness for the amended C4 statement: a canonical CO code is fixed,
and a second application on a raw code changes nothing. -/
theorem normalize_prefix_idem_witness :
    normalize_prefix "CO45".toList = "CO45".toList ∧
    normalize_prefix ( normalize_prefix " pib9 ".toList)
      = normalize_prefix " pib9 ".toList :=
  ⟨normalize_prefix_idem.1 "CO45".toList (by decide) (by decide) (by decide),
   normalize_prefix_idem.2 " pib9 ".toList⟩

/-! ### C5: the distinct-claims counts sum to the distinct visits -/

/-- C5: when every visit identifier occurs in exactly one
(normalized code, final description) group, the Distinct Claims counts
of the aggregated summary sum to the number of distinct visit
identifiers of the merged table. -/
theorem final_summary_sum (df : List Row)
    (h : ∀ r ∈ df, ∀ s ∈ df, r.visit = s.visit → groupKey r = groupKey s) :
    ((final_summary df).map fun x => x.2).sum = distinctVisits df := by
  have hperm : ((final_summary df).map fun x => x.2).sum
      = (((groupKeys df).map fun k => (k, nuniqueVisits df k)).map
          fun x => x.2).sum :=
    List.Perm.sum_eq (List.Perm.map _ (List.perm_insertionSort _ _))
  rw [hperm, List.map_map]
  show ((groupKeys df).map fun k => nuniqueVisits df k).sum = distinctVisits df
  unfold groupKeys
  rw [← List.sum_toFinset _ (List.nodup_dedup (df.map groupKey))]
  have hcard : ∀ k, nuniqueVisits df k =
      ((df.filter fun r => groupKey r = k).map Row.visit).toFinset.card := by
    intro k
    rw [List.card_toFinset]
    rfl
  simp only [hcard]
  have hdv : distinctVisits df = (df.map Row.visit).toFinset.card :=
    (List.card_toFinset _).symm
  rw [hdv]
  have hdisj : ∀ x ∈ (df.map groupKey).dedup.toFinset,
      ∀ y ∈ (df.map groupKey).dedup.toFinset, x ≠ y →
      Disjoint ((df.filter fun r => groupKey r = x).map Row.visit).toFinset
        ((df.filter fun r => groupKey r = y).map Row.visit).toFinset := by
    intro x _ y _ hxy
    rw [Finset.disjoint_left]
    intro v hvx hvy
    rw [List.mem_toFinset, List.mem_map] at hvx hvy
    obtain ⟨r, hr, hrv⟩ := hvx
    obtain ⟨s, hs, hsv⟩ := hvy
    rw [List.mem_filter] at hr hs
    have h1 : groupKey r = x := by simpa using hr.2
    have h2 : groupKey s = y := by simpa using hs.2
    apply hxy
    rw [← h1, ← h2]
    exact h r hr.1 s hs.1 (by rw [hrv, hsv])
  have hun : ((df.map groupKey).dedup.toFinset.biUnion fun k =>
      ((df.filter fun r => groupKey r = k).map Row.visit).toFinset)
      = (df.map Row.visit).toFinset := by
    ext v
    simp only [Finset.mem_biUnion, List.mem_toFinset, List.mem_map,
      List.mem_filter, List.mem_dedup, decide_eq_true_eq]
    constructor
    · rintro ⟨k, -, r, ⟨hrdf, -⟩, hrv⟩
      exact ⟨r, hrdf, hrv⟩
    · rintro ⟨r, hrdf, hrv⟩
      exact ⟨groupKey r, ⟨r, hrdf, rfl⟩, r, ⟨hrdf, rfl⟩, hrv⟩
  rw [← hun, Finset.card_biUnion hdisj]

/-- Witness for C5 on a two-row table with distinct visits in one
group. -/
theorem final_summary_sum_witness :
    ((final_summary [Row.mk "CO45".toList "d".toList "v1".toList,
        Row.mk "CO45".toList "d".toList "v2".toList]).map fun x => x.2).sum
      = distinctVisits [Row.mk "CO45".toList "d".toList "v1".toList,
        Row.mk "CO45".toList "d".toList "v2".toList] :=
  final_summary_sum _ (by decide)

/-! ### C6: the Others slice, with possibly-missing visit identifiers

The `Visit #` column of the merged table can contain empty cells, which
pandas reads as NaN, and `nunique()` on line 91 drops NaN: a group
whose every `Visit #` cell is missing gets Distinct Claims 0.  The
model here makes such cells expressible. -/

/-- One row of the merged table for the pie-chart claims: the
`Visit #` cell may be missing (NaN), modelled by `none`. -/
structure RowNan where
  normCode : PyStr
  finalDesc : PyStr
  visit : Option PyStr
deriving DecidableEq

/-- The grouping key of line 90, on NaN-capable rows. -/
def groupKeyNan (r : RowNan) : PyStr × PyStr := (r.normCode, r.finalDesc)

/-- The distinct group keys, in first-appearance order. -/
def groupKeysNan (df : List RowNan) : List (PyStr × PyStr) :=
  (df.map groupKeyNan).dedup

/-- Pandas `nunique` of the `Visit #` column within one group
(line 91), dropping missing cells as `nunique()` does: the number of
distinct present visit values, which is 0 for an all-NaN group. -/
def nuniqueVisitsNan (df : List RowNan) (k : PyStr × PyStr) : Nat :=
  (((df.filter fun r => groupKeyNan r = k).filterMap RowNan.visit).dedup).length

/-- Lines 89-95 of the source on NaN-capable rows: group, count
distinct present visits, sort descending by count. -/
def final_summaryNan (df : List RowNan) : List ((PyStr × PyStr) × Nat) :=
  List.insertionSort (fun a b => b.2 ≤ a.2)
    ((groupKeysNan df).map fun k => (k, nuniqueVisitsNan df k))

/-- Line 114 of the source: `final_summary['Distinct Claims'][10:].sum()`. -/
def others_sumNan (df : List RowNan) : Nat :=
  (((final_summaryNan df).drop 10).map fun x => x.2).sum

/-- Lines 113-124 of the source: the data fed to the pie chart — the
top 10 summary rows, plus an appended `Others` row exactly when the
remaining counts sum to something positive. -/
def pie_final_dfNan (df : List RowNan) : List ((PyStr × PyStr) × Nat) :=
  if 0 < others_sumNan df then
    (final_summaryNan df).take 10
      ++ [(("Others".toList, "All remaining reasons".toList), others_sumNan df)]
  else (final_summaryNan df).take 10

/-- Eleven groups: ten with one present visit each, an eleventh whose
only `Visit #` cell is missing. -/
def elevenGroups : List RowNan :=
  [⟨"A".toList, "d".toList, some "1".toList⟩,
   ⟨"B".toList, "d".toList, some "2".toList⟩,
   ⟨"C".toList, "d".toList, some "3".toList⟩,
   ⟨"D".toList, "d".toList, some "4".toList⟩,
   ⟨"E".toList, "d".toList, some "5".toList⟩,
   ⟨"F".toList, "d".toList, some "6".toList⟩,
   ⟨"G".toList, "d".toList, some "7".toList⟩,
   ⟨"H".toList, "d".toList, some "8".toList⟩,
   ⟨"I".toList, "d".toList, some "9".toList⟩,
   ⟨"J".toList, "d".toList, some "X".toList⟩,
   ⟨"K".toList, "d".toList, none⟩]

/-- Eleven groups whose visits are all present and distinct. -/
def elevenPresent : List RowNan :=
  [⟨"A".toList, "d".toList, some "1".toList⟩,
   ⟨"B".toList, "d".toList, some "2".toList⟩,
   ⟨"C".toList, "d".toList, some "3".toList⟩,
   ⟨"D".toList, "d".toList, some "4".toList⟩,
   ⟨"E".toList, "d".toList, some "5".toList⟩,
   ⟨"F".toList, "d".toList, some "6".toList⟩,
   ⟨"G".toList, "d".toList, some "7".toList⟩,
   ⟨"H".toList, "d".toList, some "8".toList⟩,
   ⟨"I".toList, "d".toList, some "9".toList⟩,
   ⟨"J".toList, "d".toList, some "X".toList⟩,
   ⟨"K".toList, "d".toList, some "Y".toList⟩]

/-- C6 counterexample: with eleven groups of which the eleventh has its
only `Visit #` missing, that group counts 0 and sorts last, the counts
beyond the top 10 sum to 0, and no `Others` slice is appended although
more than 10 distinct groups exist in the aggregated summary — the
if-direction of the claimed biconditional fails. -/
theorem eleven_groups_no_others_slice :
    10 < (groupKeysNan elevenGroups).length ∧
    others_sumNan elevenGroups = 0 ∧
    pie_final_dfNan elevenGroups = (final_summaryNan elevenGroups).take 10 ∧
    (∀ x ∈ pie_final_dfNan elevenGroups, x.1.1 ≠ "Others".toList) := by
  decide

/-- C6 amended: the pie-chart data contains the appended `Others`
slice — whose value is the sum of the Distinct Claims counts of all
groups outside the top 10 — exactly when that sum is positive; when
every `Visit #` cell of the table is present, that condition is
equivalent to more than 10 distinct groups existing; and the value
always equals the total claims minus the claims of the top 10 rows. -/
theorem others_sliceNan (df : List RowNan) :
    (pie_final_dfNan df
        = (final_summaryNan df).take 10
            ++ [(("Others".toList, "All remaining reasons".toList),
                 (((final_summaryNan df).drop 10).map fun x => x.2).sum)]
      ↔ 0 < others_sumNan df) ∧
    ((∀ r ∈ df, r.visit ≠ none) →
      (0 < others_sumNan df ↔ 10 < (groupKeysNan df).length)) ∧
    others_sumNan df
      = ((final_summaryNan df).map fun x => x.2).sum
        - (((final_summaryNan df).take 10).map fun x => x.2).sum := by
  have hsplit : ((final_summaryNan df).map fun x => x.2).sum
      = (((final_summaryNan df).take 10).map fun x => x.2).sum
        + others_sumNan df := by
    unfold others_sumNan
    rw [← List.sum_append, ← List.map_append, List.take_append_drop]
  have hlen : (final_summaryNan df).length = (groupKeysNan df).length := by
    unfold final_summaryNan
    rw [(List.perm_insertionSort _ _).length_eq, List.length_map]
  refine ⟨⟨?_, ?_⟩, fun hall => ⟨?_, ?_⟩, by omega⟩
  · intro heq
    by_contra hn
    have h0 : others_sumNan df = 0 := by omega
    unfold pie_final_dfNan at heq
    rw [if_neg (by omega)] at heq
    have hcl := congrArg List.length heq
    rw [List.length_append] at hcl
    simp only [List.length_cons, List.length_nil] at hcl
    omega
  · intro hp
    unfold pie_final_dfNan
    rw [if_pos hp]
    rfl
  · intro hp0
    by_contra hle
    push_neg at hle
    have hnil : (final_summaryNan df).drop 10 = [] := by
      rw [List.drop_eq_nil_iff]
      omega
    unfold others_sumNan at hp0
    rw [hnil] at hp0
    simp at hp0
  · intro hgt
    have hpos : ∀ x ∈ final_summaryNan df, 1 ≤ x.2 := by
      intro x hx
      have hx' : x ∈ (groupKeysNan df).map fun k => (k, nuniqueVisitsNan df k) :=
        (List.perm_insertionSort _ _).mem_iff.mp hx
      rw [List.mem_map] at hx'
      obtain ⟨k, hk, rfl⟩ := hx'
      have hk' : k ∈ df.map groupKeyNan := List.mem_dedup.mp hk
      rw [List.mem_map] at hk'
      obtain ⟨r, hrdf, hrk⟩ := hk'
      obtain ⟨v, hv⟩ : ∃ v, r.visit = some v := by
        cases hvv : r.visit with
        | none => exact absurd hvv (hall r hrdf)
        | some v => exact ⟨v, rfl⟩
      have hrf : r ∈ df.filter fun s => groupKeyNan s = k := by
        rw [List.mem_filter]
        exact ⟨hrdf, by simp [hrk]⟩
      have hvm : v ∈
          ((df.filter fun s => groupKeyNan s = k).filterMap RowNan.visit).dedup := by
        rw [List.mem_dedup, List.mem_filterMap]
        exact ⟨r, hrf, hv⟩
      have hlv := List.length_pos.mpr (List.ne_nil_of_mem hvm)
      unfold nuniqueVisitsNan
      omega
    have hne : (final_summaryNan df).drop 10 ≠ [] := by
      intro hnil
      have hz := congrArg List.length hnil
      rw [List.length_drop] at hz
      simp at hz
      omega
    cases hd : (final_summaryNan df).drop 10 with
    | nil => exact absurd hd hne
    | cons x xs =>
      have hxmem : x ∈ final_summaryNan df := by
        refine List.drop_subset 10 _ ?_
        rw [hd]
        exact List.mem_cons_self _ _
      have hx1 := hpos x hxmem
      unfold others_sumNan
      rw [hd]
      simp only [List.map_cons, List.sum_cons]
      omega

/-- Witness for the amended C6 statement: on eleven groups whose visits
are all present, the positive-remainder condition and the more-than-10
condition agree (both hold). -/
theorem others_sliceNan_witness :
    0 < others_sumNan elevenPresent
      ↔ 10 < (groupKeysNan elevenPresent).length :=
  (others_sliceNan elevenPresent).2.1 (by decide)

end DenialTrending
